import Mathlib

/-!
# port/port_win.cc

A shallow embedding of the Windows port layer of the storage engine
(`src/port/port_win.cc`): the POSIX shims (`gettimeofday`,
`pthread_key_create`, `pthread_setspecific`), `Mutex`, `CondVar` and
`InitOnce`.

Conventions.
* Unsigned machine integers are `Nat` reduced modulo `2 ^ w` where the source
  can wrap; signed ones are `Int` obtained by two's-complement reinterpretation.
* A call into the operating system is not code of this file.  Where the
  source only looks at what such a call returns, the returned value is an
  argument of the embedded function.  Where the source relies on what the call
  does to the lock, the call is an atomic step of a small step machine.
* `ndebug = true` stands for a build with `NDEBUG` defined (release),
  `ndebug = false` for a debug build.
* Several threads are a list of thread states over one shared `Mutex` and one
  shared counter; an interleaving is the list of the threads that take the
  successive atomic steps, and a step that acquires the critical section is
  enabled only while no thread owns it.
-/

namespace PortWin

/-! ## Machine integers and Windows constants -/

/-- Windows `FALSE`. -/
def FALSE : Int := 0

/-- Windows `TRUE`. -/
def TRUE : Int := 1

/-- The constant `UINT32_MAX` of `<cstdint>`. -/
def UINT32_MAX : Nat := 4294967295

/-- Windows `INFINITE`, the time-out value that means "no time-out". -/
def INFINITE : Nat := 0xFFFFFFFF

/-- Windows `ERROR_TIMEOUT` (winerror.h). -/
def ERROR_TIMEOUT : Nat := 1460

/-- Windows `ERROR_INVALID_PARAMETER` (winerror.h). -/
def ERROR_INVALID_PARAMETER : Nat := 87

/-- The conversion `static_cast<DWORD>(x)` of an unsigned 64-bit value: the low
32 bits. -/
def static_cast_DWORD (x : Nat) : Nat := x % 2 ^ 32

/-- Conversion of an unsigned value to a signed 32-bit integer (`int`, and
`long` under the Windows ABI): the low 32 bits read as two's complement. -/
def toInt32 (x : Nat) : Int :=
  if x % 2 ^ 32 < 2 ^ 31 then (x % 2 ^ 32 : Nat) else ((x % 2 ^ 32 : Nat) : Int) - 2 ^ 32

/-! ## gettimeofday -/

/-- Windows `FILETIME`: a 64-bit count of 100-nanosecond ticks since
1601-01-01, stored as two 32-bit halves. -/
structure FILETIME where
  dwLowDateTime : Nat
  dwHighDateTime : Nat
deriving DecidableEq, Repr

/-- The `FILETIME` that `GetSystemTimeAsFileTime` stores when the system time
is `t` ticks. -/
def FILETIME.ofTicks (t : Nat) : FILETIME :=
  { dwLowDateTime := t % 2 ^ 32, dwHighDateTime := t / 2 ^ 32 % 2 ^ 32 }

/-- The `QuadPart` view of `ULARGE_INTEGER uli = { low, high }`. -/
def QuadPart (ft : FILETIME) : Nat := ft.dwLowDateTime + ft.dwHighDateTime * 2 ^ 32

/-- The structure `struct timeval`; both fields are `long`. -/
structure timeval where
  tv_sec : Int
  tv_usec : Int
deriving DecidableEq, Repr

/-- Source lines 21-31.  `tv = none` is the null pointer, `tv = some v` points
to `v`; `ft` is what `GetSystemTimeAsFileTime` stores.  Returns the `int`
result and the object `tv` points to afterwards. -/
def gettimeofday (tv : Option timeval) (ft : FILETIME) : Int × Option timeval :=
  match tv with
  | some _ =>
    -- uli.QuadPart -= 116444736000000000ull   (unsigned 64-bit arithmetic)
    let uli := (QuadPart ft + 2 ^ 64 - 116444736000000000) % 2 ^ 64
    (0, some { tv_sec := toInt32 (uli / 10000000),
               tv_usec := toInt32 ((uli % 10000000 + 5) / 10) })
  | none => (0, none)

/-! ## Thread-local storage shims -/

/-- Source lines 37-40.  `key` is the object the `key` argument points to,
`destructor` stands for the (unused) destructor pointer, `tlsAlloc` is the
`DWORD` that `TlsAlloc()` returns.  Returns the `int` result and the object
`key` points to afterwards: the body is `return TlsAlloc();` and never writes
through `key`. -/
def pthread_key_create (key : Nat) (_destructor : Option Nat) (tlsAlloc : Nat) : Int × Nat :=
  (toInt32 tlsAlloc, key)

/-- Source lines 46-48.  `tlsSetValue` is the `BOOL` that
`TlsSetValue(key, value)` returns (zero on failure), `lastError` what
`GetLastError()` would return after it.  The body is
`TlsSetValue(..) == FALSE ? 0 : GetLastError()`. -/
def pthread_setspecific (tlsSetValue : Int) (lastError : Nat) : Int :=
  if tlsSetValue = FALSE then 0 else toInt32 lastError

/-! ## Mutex and CondVar -/

/-- State of one `Mutex` as seen by the calling thread: `owned` says whether the
thread owns the native critical section `cs_`, `locked_` is the debug flag. -/
structure MutexState where
  owned : Bool
  locked_ : Bool
deriving DecidableEq, Repr

/-- Atomic steps of the calling thread on its `Mutex`. -/
inductive Step where
  /-- The call `EnterCriticalSection(&cs_)` returning: the thread owns the lock. -/
  | EnterCriticalSection
  /-- The call `LeaveCriticalSection(&cs_)`: the thread gives the lock up. -/
  | LeaveCriticalSection
  /-- The assignment `locked_ = b`. -/
  | setLocked (b : Bool)
  /-- First half of `SleepConditionVariableCS(&cv_, &cs_, dwMilliseconds)`:
  the lock is released and the thread is suspended. -/
  | sleepSuspend (dwMilliseconds : Nat)
  /-- Second half of `SleepConditionVariableCS`: the thread wakes up (signal,
  spurious wake or time-out) and owns the lock again when the call returns. -/
  | sleepResume
deriving DecidableEq, Repr

/-- Effect of one atomic step. -/
def Step.apply : Step → MutexState → MutexState
  | .EnterCriticalSection, s => { s with owned := true }
  | .LeaveCriticalSection, s => { s with owned := false }
  | .setLocked b, s => { s with locked_ := b }
  | .sleepSuspend _, s => { s with owned := false }
  | .sleepResume, s => { s with owned := true }

/-- A step that writes the debug flag. -/
def Step.writesLocked : Step → Bool
  | .setLocked _ => true
  | _ => false

/-- A step that opens the suspension window of a wait. -/
def Step.suspends : Step → Bool
  | .sleepSuspend _ => true
  | _ => false

/-- The statements under `#ifndef NDEBUG`: present in a debug build only. -/
def ifndef_NDEBUG (ndebug : Bool) (body : List Step) : List Step :=
  if ndebug then [] else body

/-- Source lines 62-67. -/
def Mutex.Lock (ndebug : Bool) : List Step :=
  [Step.EnterCriticalSection] ++ ifndef_NDEBUG ndebug [Step.setLocked true]

/-- Source lines 69-74. -/
def Mutex.Unlock (ndebug : Bool) : List Step :=
  ifndef_NDEBUG ndebug [Step.setLocked false] ++ [Step.LeaveCriticalSection]

/-- Source lines 76-80: `assert(locked_)` in a debug build, nothing in a
release build.  `none` is the abort of a failed assertion. -/
def Mutex.AssertHeld (ndebug : Bool) (s : MutexState) : Option MutexState :=
  if ndebug then some s
  else if s.locked_ then some s else none

/-- Source lines 90-98. -/
def CondVar.Wait (ndebug : Bool) : List Step :=
  ifndef_NDEBUG ndebug [Step.setLocked false]
    ++ [Step.sleepSuspend INFINITE, Step.sleepResume]
    ++ ifndef_NDEBUG ndebug [Step.setLocked true]

/-- The third argument of `SleepConditionVariableCS` on source line 104:
`static_cast<DWORD>(std::max(UINT32_MAX - 1ui64, abs_time_us / 1000))`, with
`abs_time_us` an unsigned 64-bit value. -/
def TimedWait_dwMilliseconds (abs_time_us : Nat) : Nat :=
  static_cast_DWORD (max (UINT32_MAX - 1) (abs_time_us % 2 ^ 64 / 1000))

/-- Source lines 100-107, the steps on the `Mutex`. -/
def CondVar.TimedWait (ndebug : Bool) (abs_time_us : Nat) : List Step :=
  ifndef_NDEBUG ndebug [Step.setLocked false]
    ++ [Step.sleepSuspend (TimedWait_dwMilliseconds abs_time_us), Step.sleepResume]
    ++ ifndef_NDEBUG ndebug [Step.setLocked true]

/-- Source line 108, the value `TimedWait` returns:
`success == FALSE && GetLastError() == ERROR_TIMEOUT`, where `success` is the
`BOOL` that `SleepConditionVariableCS` returned and `lastError` what
`GetLastError()` returns after it. -/
def CondVar.TimedWait_return (success : Int) (lastError : Nat) : Bool :=
  success == FALSE && lastError == ERROR_TIMEOUT

/-- Runs a list of steps. -/
def run (p : List Step) (s : MutexState) : MutexState :=
  p.foldl (fun st x => x.apply st) s

/-- The execution of a list of steps from `s`: every step with the state it
is taken in and the state it leaves. -/
def execTrace : List Step → MutexState → List (MutexState × Step × MutexState)
  | [], _ => []
  | x :: rest, s => (s, x, x.apply s) :: execTrace rest (x.apply s)

/-- Source lines 100-109 as one call: the value returned and the state of the
`Mutex` at the return.  `success` and `lastError` describe how the blocking
call ended. -/
def CondVar.TimedWait_call (ndebug : Bool) (abs_time_us : Nat) (success : Int) (lastError : Nat)
    (s : MutexState) : Bool × MutexState :=
  (CondVar.TimedWait_return success lastError, run (CondVar.TimedWait ndebug abs_time_us) s)

/-- The four operations that touch the debug flag. -/
inductive Call where
  | Lock
  | Unlock
  | Wait
  | TimedWait (abs_time_us : Nat)
deriving DecidableEq, Repr

/-- The body of a call. -/
def Call.body (ndebug : Bool) : Call → List Step
  | .Lock => Mutex.Lock ndebug
  | .Unlock => Mutex.Unlock ndebug
  | .Wait => CondVar.Wait ndebug
  | .TimedWait t => CondVar.TimedWait ndebug t

/-- The precondition of a call: `Lock` is called by a thread that does not own
the lock, the other three by a thread that owns it. -/
def Call.pre : Call → MutexState → Bool
  | .Lock, s => !s.owned
  | _, s => s.owned

/-- A sequence of calls, each made in a state that meets its precondition. -/
def respectsPre (ndebug : Bool) : List Call → MutexState → Bool
  | [], _ => true
  | c :: rest, s => c.pre s && respectsPre ndebug rest (run (c.body ndebug) s)

/-- Runs a sequence of calls. -/
def runCalls (ndebug : Bool) : List Call → MutexState → MutexState
  | [], s => s
  | c :: rest, s => runCalls ndebug rest (run (c.body ndebug) s)

/-! ## InitOnce -/

/-- What a one-time initialisation acts on: the program state `world` the
initializer changes, and `invoked`, a count of executions of `initializer()`. -/
structure Env (σ : Type) where
  world : σ
  invoked : Nat

/-- State of the initialisation: the control block `once` (`false` is
"not run", `true` is "run") and the environment. -/
structure OnceState (σ : Type) where
  once : Bool
  env : Env σ

/-- Source lines 142-146: calls `initializer()` and returns `TRUE`. -/
def RunInitializer {σ : Type} (Parameter : σ → σ) (e : Env σ) : Int × Env σ :=
  let e1 : Env σ := { world := Parameter e.world, invoked := e.invoked + 1 }
  (TRUE, e1)

/-- The execute-once primitive of the system: the callback is invoked iff the
control block is "not run", and the block becomes "run" iff the callback
returns `TRUE`. -/
def InitOnceExecuteOnce {σ : Type} (once : Bool)
    (InitFn : (σ → σ) → Env σ → Int × Env σ) (Parameter : σ → σ) (e : Env σ) : OnceState σ :=
  if once then { once := once, env := e }
  else
    let r := InitFn Parameter e
    { once := decide (r.1 = TRUE), env := r.2 }

/-- Source lines 148-150. -/
def InitOnce {σ : Type} (s : OnceState σ) (initializer : σ → σ) : OnceState σ :=
  InitOnceExecuteOnce s.once RunInitializer initializer s.env

/-- The state after `n` sequential `InitOnce` calls. -/
def InitOnce_times {σ : Type} (initializer : σ → σ) : Nat → OnceState σ → OnceState σ
  | 0, s => s
  | n + 1, s => InitOnce (InitOnce_times initializer n s) initializer

/-! ## Threads incrementing a shared counter under one Mutex -/

/-- Instructions of a thread that shares one `Mutex` and one counter with other
threads: an atomic step on the `Mutex`, the read of the counter into a local,
and the write of the local plus one to the counter.  The increment is not
atomic: other threads may run between the read and the write. -/
inductive Instr where
  | mutex (x : Step)
  | load
  | store
deriving DecidableEq, Repr

/-- One increment of the shared counter bracketed by `Lock()` and `Unlock()`. -/
def lockedIncrement (ndebug : Bool) : List Instr :=
  (Mutex.Lock ndebug).map Instr.mutex ++ [Instr.load, Instr.store]
    ++ (Mutex.Unlock ndebug).map Instr.mutex

/-- What a thread runs: `n` bracketed increments. -/
def threadProgram (ndebug : Bool) : Nat → List Instr
  | 0 => []
  | n + 1 => lockedIncrement ndebug ++ threadProgram ndebug n

/-- One thread: the instructions it still has to run, its local copy of the
counter, and whether it owns the native critical section. -/
structure ThreadState where
  pc : List Instr
  reg : Nat
  owned : Bool
deriving DecidableEq, Repr

/-- The threads, the debug flag of the shared `Mutex`, and the shared counter. -/
structure World where
  threads : List ThreadState
  locked_ : Bool
  counter : Nat
deriving DecidableEq, Repr

/-- A step that returns only once the calling thread has obtained the lock. -/
def Step.acquires : Step → Bool
  | .EnterCriticalSection => true
  | .sleepResume => true
  | _ => false

/-- No thread owns the critical section. -/
def World.lockFree (w : World) : Bool :=
  w.threads.all (fun t => !t.owned)

/-- One atomic step of thread `i`; `none` when there is no such thread, when it
has finished, or when it is blocked: an acquiring step is enabled only while no
thread owns the critical section.  A step on the `Mutex` acts through
`Step.apply` on the thread's view of it. -/
def World.step (w : World) (i : Nat) : Option World :=
  match w.threads[i]? with
  | none => none
  | some t =>
    match t.pc with
    | [] => none
    | Instr.mutex x :: rest =>
      if x.acquires && !w.lockFree then none
      else
        let v := x.apply { owned := t.owned, locked_ := w.locked_ }
        some { threads := w.threads.set i { pc := rest, reg := t.reg, owned := v.owned },
               locked_ := v.locked_, counter := w.counter }
    | Instr.load :: rest =>
      some { threads := w.threads.set i { pc := rest, reg := w.counter, owned := t.owned },
             locked_ := w.locked_, counter := w.counter }
    | Instr.store :: rest =>
      some { threads := w.threads.set i { pc := rest, reg := t.reg, owned := t.owned },
             locked_ := w.locked_, counter := t.reg + 1 }

/-- Runs an interleaving, given as the list of the threads that take the
successive steps; `none` when a scheduled thread cannot take its step. -/
def runSchedule : List Nat → World → Option World
  | [], w => some w
  | i :: rest, w =>
    match w.step i with
    | none => none
    | some w1 => runSchedule rest w1

/-- The initial world: `k` threads about to run `n` bracketed increments each,
the lock free, the counter at `0`. -/
def World.start (ndebug : Bool) (k n : Nat) : World :=
  { threads := List.replicate k { pc := threadProgram ndebug n, reg := 0, owned := false },
    locked_ := false, counter := 0 }

/-- Every thread has run all its instructions. -/
def World.finished (w : World) : Bool :=
  w.threads.all (fun t => t.pc.isEmpty)

/-- Number of writes of the counter a thread still has to make. -/
def pendingStores : List Instr → Nat
  | [] => 0
  | Instr.store :: rest => pendingStores rest + 1
  | _ :: rest => pendingStores rest

/-- Shape of the instructions a thread still has to run, given whether it owns
the lock: it enters only when it does not own the lock, leaves only when it
does, reads the counter only while owning the lock and writes it right after,
and ends without the lock. -/
def bracketed : Bool → List Instr → Bool
  | inside, [] => !inside
  | false, Instr.mutex Step.EnterCriticalSection :: rest => bracketed true rest
  | true, Instr.mutex Step.LeaveCriticalSection :: rest => bracketed false rest
  | inside, Instr.mutex (Step.setLocked _) :: rest => bracketed inside rest
  | true, Instr.load :: Instr.store :: rest => bracketed true rest
  | _, _ => false

/-- Invariant of one thread: its remaining instructions are bracketed, or it
owns the lock, is about to write, and its local copy is the current counter. -/
def threadInv (counter : Nat) (t : ThreadState) : Prop :=
  bracketed t.owned t.pc = true
    ∨ (t.owned = true ∧ ∃ rest, t.pc = Instr.store :: rest ∧ bracketed true rest = true
        ∧ t.reg = counter)

/-- Invariant of the world: every thread meets `threadInv`, at most one thread
owns the lock, and the counter plus the pending writes is `total`. -/
structure WorldInv (total : Nat) (w : World) : Prop where
  threads : ∀ (i : Nat) (t : ThreadState), w.threads[i]? = some t → threadInv w.counter t
  excl : ∀ (i j : Nat) (ti tj : ThreadState), w.threads[i]? = some ti → w.threads[j]? = some tj →
    ti.owned = true → tj.owned = true → i = j
  count : w.counter + (w.threads.map (fun t => pendingStores t.pc)).sum = total

/-- Number of instructions the threads still have to run. -/
def World.remaining (w : World) : Nat :=
  (w.threads.map (fun t => t.pc.length)).sum

/-! ## Helper lemmas -/

theorem run_Lock_debug (s : MutexState) :
    run (Mutex.Lock false) s = { owned := true, locked_ := true } := by
  simp [run, Mutex.Lock, ifndef_NDEBUG, Step.apply]

theorem run_Unlock_debug (s : MutexState) :
    run (Mutex.Unlock false) s = { owned := false, locked_ := false } := by
  simp [run, Mutex.Unlock, ifndef_NDEBUG, Step.apply]

theorem run_Wait_debug (s : MutexState) :
    run (CondVar.Wait false) s = { owned := true, locked_ := true } := by
  simp [run, CondVar.Wait, ifndef_NDEBUG, Step.apply]

theorem run_TimedWait_debug (t : Nat) (s : MutexState) :
    run (CondVar.TimedWait false t) s = { owned := true, locked_ := true } := by
  simp [run, CondVar.TimedWait, ifndef_NDEBUG, Step.apply]

theorem run_body_debug_inv (c : Call) (s : MutexState) :
    (run (c.body false) s).locked_ = (run (c.body false) s).owned := by
  cases c <;>
    simp [Call.body, run_Lock_debug, run_Unlock_debug, run_Wait_debug, run_TimedWait_debug]

theorem runCalls_debug_inv (cs : List Call) :
    ∀ s : MutexState, s.locked_ = s.owned →
      (runCalls false cs s).locked_ = (runCalls false cs s).owned := by
  induction cs with
  | nil => intro s h; simpa [runCalls] using h
  | cons c rest ih =>
    intro s _
    simp only [runCalls]
    exact ih _ (run_body_debug_inv c s)

theorem InitOnce_of_run {σ : Type} (initializer : σ → σ) (s : OnceState σ)
    (h : s.once = true) : InitOnce s initializer = s := by
  cases s with
  | mk once env =>
    simp only at h
    subst h
    simp [InitOnce, InitOnceExecuteOnce]

theorem InitOnce_of_not_run {σ : Type} (initializer : σ → σ) (e : Env σ) :
    InitOnce { once := false, env := e } initializer
      = { once := true, env := { world := initializer e.world, invoked := e.invoked + 1 } } := by
  simp [InitOnce, InitOnceExecuteOnce, RunInitializer]

theorem InitOnce_times_succ {σ : Type} (initializer : σ → σ) (e : Env σ) (k : Nat) :
    InitOnce_times initializer (k + 1) { once := false, env := e }
      = { once := true, env := { world := initializer e.world, invoked := e.invoked + 1 } } := by
  induction k with
  | zero => simp [InitOnce_times, InitOnce_of_not_run]
  | succ k ih =>
    rw [InitOnce_times, ih]
    exact InitOnce_of_run initializer _ rfl

/-! ## TimedWait: the duration handed to the blocking wait -/

/-- What line 104 computes for every 64-bit argument: the larger of
`UINT32_MAX - 1` and `abs_time_us / 1000`, reduced to 32 bits. -/
theorem TimedWait_dwMilliseconds_eq (abs_time_us : Nat) (h : abs_time_us < 2 ^ 64) :
    TimedWait_dwMilliseconds abs_time_us
      = if abs_time_us / 1000 ≤ 4294967294 then 4294967294
        else abs_time_us / 1000 % 4294967296 := by
  unfold TimedWait_dwMilliseconds static_cast_DWORD UINT32_MAX
  rw [Nat.mod_eq_of_lt h]
  split
  · rename_i hle
    rw [max_eq_left hle]
    norm_num
  · rename_i hgt
    rw [max_eq_right (by omega)]
    norm_num

/-- C1, evaluated on the code: for `abs_time_us = 50000` the duration handed to
the blocking wait is `UINT32_MAX - 1 = 4294967294` milliseconds, not
`min (50000 / 1000) (UINT32_MAX - 1) = 50`; for `abs_time_us = 4294967295000`
it is the sentinel `INFINITE`; and for `abs_time_us = 4294967296000` the
conversion to 32 bits truncates `4294967296` to `0`. -/
theorem TimedWait_dwMilliseconds_not_min :
    TimedWait_dwMilliseconds 50000 = 4294967294
      ∧ TimedWait_dwMilliseconds 50000 ≠ min (50000 / 1000) (UINT32_MAX - 1)
      ∧ TimedWait_dwMilliseconds 4294967295000 = INFINITE
      ∧ TimedWait_dwMilliseconds 4294967296000 = 0 := by
  simp [TimedWait_dwMilliseconds, static_cast_DWORD, UINT32_MAX, INFINITE]

/-! ## TimedWait: the value returned -/

/-- C2: `TimedWait` returns `true` exactly when the blocking wait reported
failure (`success == FALSE`) and the last error is `ERROR_TIMEOUT`; it returns
`false` whenever the wait reported success (whatever the last error holds),
and `false` on a failure with any other error code. -/
theorem TimedWait_return_true_iff_timeout (success : Int) (lastError : Nat) :
    (CondVar.TimedWait_return success lastError = true
        ↔ success = FALSE ∧ lastError = ERROR_TIMEOUT)
      ∧ (success ≠ FALSE → CondVar.TimedWait_return success lastError = false)
      ∧ (success = FALSE → lastError ≠ ERROR_TIMEOUT →
          CondVar.TimedWait_return success lastError = false)
      ∧ (∀ (ndebug : Bool) (t : Nat) (s : MutexState),
          (CondVar.TimedWait_call ndebug t success lastError s).1
            = CondVar.TimedWait_return success lastError) := by
  refine ⟨?_, ?_, ?_, ?_⟩
  · simp [CondVar.TimedWait_return]
  · intro h
    simp [CondVar.TimedWait_return, h]
  · intro _ h
    simp [CondVar.TimedWait_return, h]
  · intro _ _ _
    rfl

/-! ## The debug flag at the return of every operation -/

/-- C3: in a debug build, from a state with `locked_ = owned`: `Lock` called
when not owned returns with both true, `Unlock` called when owned returns with
both false, `Wait` and `TimedWait` called when owned return with both true
(for `TimedWait` whatever the outcome of the blocking wait), and after every
finite sequence of these calls that respects the preconditions
`locked_ = owned` holds again. -/
theorem locked_eq_owned_at_return (s : MutexState) (hinv : s.locked_ = s.owned) :
    (s.owned = false → run (Mutex.Lock false) s = { owned := true, locked_ := true })
      ∧ (s.owned = true → run (Mutex.Unlock false) s = { owned := false, locked_ := false })
      ∧ (s.owned = true → run (CondVar.Wait false) s = { owned := true, locked_ := true })
      ∧ (s.owned = true → ∀ (t : Nat) (success : Int) (lastError : Nat),
          (CondVar.TimedWait_call false t success lastError s).2
            = { owned := true, locked_ := true })
      ∧ (∀ cs : List Call, respectsPre false cs s = true →
          (runCalls false cs s).locked_ = (runCalls false cs s).owned) := by
  refine ⟨fun _ => run_Lock_debug s, fun _ => run_Unlock_debug s, fun _ => run_Wait_debug s,
    fun _ t _ _ => run_TimedWait_debug t s, fun cs _ => runCalls_debug_inv cs s hinv⟩

/-- Witness of C3: `Lock; Wait; TimedWait 50000; Unlock` from the unowned
state respects the preconditions and ends with `locked_ = owned`. -/
theorem locked_eq_owned_at_return_witness :
    respectsPre false [Call.Lock, Call.Wait, Call.TimedWait 50000, Call.Unlock]
        { owned := false, locked_ := false } = true
      ∧ (runCalls false [Call.Lock, Call.Wait, Call.TimedWait 50000, Call.Unlock]
          { owned := false, locked_ := false }).locked_
        = (runCalls false [Call.Lock, Call.Wait, Call.TimedWait 50000, Call.Unlock]
          { owned := false, locked_ := false }).owned :=
  have hpre : respectsPre false [Call.Lock, Call.Wait, Call.TimedWait 50000, Call.Unlock]
      { owned := false, locked_ := false } = true := by
    simp [respectsPre, Call.pre, Call.body, run_Lock_debug, run_Wait_debug, run_TimedWait_debug]
  ⟨hpre, (locked_eq_owned_at_return { owned := false, locked_ := false } rfl).2.2.2.2 _ hpre⟩

/-! ## InitOnce -/

/-- C4: with the control block a not-run/run flag and the execute-once
primitive invoking the callback iff the flag is not-run: `RunInitializer`
invokes the initializer once and returns `TRUE`; for every `n ≥ 1`, after the
first of `n` sequential `InitOnce` calls the block is "run" and the
initializer has been invoked exactly once; every later call changes nothing
(no invocation, the block stays "run"); so after all `n` calls the initializer
has been invoked exactly once. -/
theorem InitOnce_invokes_exactly_once {σ : Type} (initializer : σ → σ) (w0 : σ) (n : Nat)
    (hn : 1 ≤ n) :
    (∀ e : Env σ, RunInitializer initializer e
        = (TRUE, { world := initializer e.world, invoked := e.invoked + 1 }))
      ∧ InitOnce_times initializer 1 { once := false, env := { world := w0, invoked := 0 } }
          = { once := true, env := { world := initializer w0, invoked := 1 } }
      ∧ (∀ k : Nat, 1 ≤ k → k < n →
          InitOnce_times initializer (k + 1)
              { once := false, env := { world := w0, invoked := 0 } }
            = InitOnce_times initializer k
              { once := false, env := { world := w0, invoked := 0 } })
      ∧ (∀ k : Nat, 1 ≤ k → k ≤ n →
          (InitOnce_times initializer k
              { once := false, env := { world := w0, invoked := 0 } }).once = true)
      ∧ (InitOnce_times initializer n
            { once := false, env := { world := w0, invoked := 0 } }).env.invoked = 1
      ∧ (InitOnce_times initializer n
            { once := false, env := { world := w0, invoked := 0 } }).env.world
          = initializer w0 := by
  refine ⟨fun _ => rfl, ?_, ?_, ?_, ?_, ?_⟩
  · exact InitOnce_times_succ initializer _ 0
  · intro k hk _
    obtain ⟨j, rfl⟩ : ∃ j, k = j + 1 := ⟨k - 1, by omega⟩
    rw [InitOnce_times_succ, InitOnce_times_succ]
  · intro k hk _
    obtain ⟨j, rfl⟩ : ∃ j, k = j + 1 := ⟨k - 1, by omega⟩
    rw [InitOnce_times_succ]
  · obtain ⟨j, rfl⟩ : ∃ j, n = j + 1 := ⟨n - 1, by omega⟩
    rw [InitOnce_times_succ]
  · obtain ⟨j, rfl⟩ : ∃ j, n = j + 1 := ⟨n - 1, by omega⟩
    rw [InitOnce_times_succ]

/-- Witness of C4: three `InitOnce` calls with the initializer `fun w => w + 10`
from the world `5` invoke it once and leave the world at `15`. -/
theorem InitOnce_invokes_exactly_once_witness :
    1 ≤ 3
      ∧ (InitOnce_times (fun w : Nat => w + 10) 3
            { once := false, env := { world := 5, invoked := 0 } }).env.invoked = 1
      ∧ (InitOnce_times (fun w : Nat => w + 10) 3
            { once := false, env := { world := 5, invoked := 0 } }).env.world = 15 :=
  ⟨by decide,
    (InitOnce_invokes_exactly_once (fun w : Nat => w + 10) 5 3 (by decide)).2.2.2.2.1,
    (InitOnce_invokes_exactly_once (fun w : Nat => w + 10) 5 3 (by decide)).2.2.2.2.2⟩

/-! ## gettimeofday -/

/-- What lines 22-30 store for a system time of `t` ticks at or after the Unix
epoch: the whole seconds, and the remaining ticks rounded to the nearest
microsecond, which is at most `1000000`. -/
theorem gettimeofday_eq (v : timeval) (t : Nat) (h1 : 116444736000000000 ≤ t)
    (h2 : t < 2 ^ 64) :
    gettimeofday (some v) (FILETIME.ofTicks t)
        = (0, some { tv_sec := toInt32 ((t - 116444736000000000) / 10000000),
                     tv_usec := (((t - 116444736000000000) % 10000000 + 5) / 10 : Nat) })
      ∧ ((t - 116444736000000000) % 10000000 + 5) / 10 ≤ 1000000 := by
  have hq : QuadPart (FILETIME.ofTicks t) = t := by
    simp only [QuadPart, FILETIME.ofTicks]
    norm_num at h2 ⊢
    omega
  have hsub : (t + 2 ^ 64 - 116444736000000000) % 2 ^ 64 = t - 116444736000000000 := by
    norm_num at h2 ⊢
    omega
  have hle : ((t - 116444736000000000) % 10000000 + 5) / 10 ≤ 1000000 := by omega
  have husec : toInt32 (((t - 116444736000000000) % 10000000 + 5) / 10)
      = (((t - 116444736000000000) % 10000000 + 5) / 10 : Nat) := by
    have hlt : ((t - 116444736000000000) % 10000000 + 5) / 10 % 2 ^ 32
        = ((t - 116444736000000000) % 10000000 + 5) / 10 :=
      Nat.mod_eq_of_lt (by norm_num; omega)
    unfold toInt32
    rw [hlt, if_pos (by norm_num; omega)]
  refine ⟨?_, hle⟩
  simp only [gettimeofday, hq, hsub, husec]

/-- C5, evaluated on the code: at the system time
`t = 116444736000000000 + 9999995` ticks, `gettimeofday` with a non-null `tv`
returns `0` and stores `tv_sec = 0`, `tv_usec = 1000000`, which is above
`999999`. -/
theorem gettimeofday_usec_1000000 :
    gettimeofday (some { tv_sec := 0, tv_usec := 0 }) (FILETIME.ofTicks 116444736009999995)
        = (0, some { tv_sec := 0, tv_usec := 1000000 })
      ∧ ¬ ((1000000 : Int) ≤ 999999) := by
  refine ⟨?_, by decide⟩
  simp [gettimeofday, FILETIME.ofTicks, QuadPart, toInt32]

/-! ## AssertHeld -/

/-- C6: in a debug build `AssertHeld` aborts iff `locked_` is false and
otherwise returns with the state unchanged; in a release build it returns
with the state unchanged whatever the flag. -/
theorem AssertHeld_aborts_iff_not_locked (s : MutexState) :
    (Mutex.AssertHeld false s = none ↔ s.locked_ = false)
      ∧ (Mutex.AssertHeld false s = some s ↔ s.locked_ = true)
      ∧ Mutex.AssertHeld true s = some s := by
  cases s with
  | mk owned locked_ => cases locked_ <;> simp [Mutex.AssertHeld]

/-! ## The debug flag inside every operation -/

/-- C8: in a debug build, for each of `Lock`, `Unlock`, `Wait`, `TimedWait`
called under its precondition from a state with `locked_ = owned`: the bodies
are the step sequences below (`Lock` writes the flag after entering, `Unlock`
before leaving, the waits before the blocking call and after its return), and
at every step of the execution a write of `locked_` is made while the thread
owns the lock, `locked_ = true` implies `owned = true` before and after the
step, and the step that suspends the thread leaves `locked_ = false` with the
lock released, the next step being the resumption. -/
theorem locked_written_only_while_owned (c : Call) (s : MutexState)
    (hinv : s.locked_ = s.owned) (hpre : c.pre s = true) :
    (Mutex.Lock false = [Step.EnterCriticalSection, Step.setLocked true]
        ∧ Mutex.Unlock false = [Step.setLocked false, Step.LeaveCriticalSection]
        ∧ CondVar.Wait false
            = [Step.setLocked false, Step.sleepSuspend INFINITE, Step.sleepResume,
                Step.setLocked true]
        ∧ ∀ t : Nat, CondVar.TimedWait false t
            = [Step.setLocked false, Step.sleepSuspend (TimedWait_dwMilliseconds t),
                Step.sleepResume, Step.setLocked true])
      ∧ ∀ e ∈ execTrace (c.body false) s,
          (e.2.1.writesLocked = true → e.1.owned = true ∧ e.2.2.owned = true)
            ∧ (e.1.locked_ = true → e.1.owned = true)
            ∧ (e.2.2.locked_ = true → e.2.2.owned = true)
            ∧ (e.2.1.suspends = true → e.2.2.locked_ = false ∧ e.2.2.owned = false) := by
  refine ⟨⟨rfl, rfl, rfl, fun _ => rfl⟩, ?_⟩
  cases s with
  | mk owned locked_ =>
    simp only at hinv
    subst hinv
    cases c <;> cases locked_ <;> simp [Call.pre] at hpre <;>
      simp [Call.body, Mutex.Lock, Mutex.Unlock, CondVar.Wait, CondVar.TimedWait,
        ifndef_NDEBUG, execTrace, Step.apply, Step.writesLocked, Step.suspends]

/-- Witness of C8: the suspending step of `Wait` called on an owned `Mutex`. -/
theorem locked_written_only_while_owned_witness :
    (({ owned := true, locked_ := false }, Step.sleepSuspend INFINITE,
          { owned := false, locked_ := false }) : MutexState × Step × MutexState)
        ∈ execTrace (Call.body false Call.Wait) { owned := true, locked_ := true }
      ∧ (Step.suspends (Step.sleepSuspend INFINITE) = true →
          ({ owned := false, locked_ := false } : MutexState).locked_ = false
            ∧ ({ owned := false, locked_ := false } : MutexState).owned = false) :=
  have hmem : (({ owned := true, locked_ := false }, Step.sleepSuspend INFINITE,
          { owned := false, locked_ := false }) : MutexState × Step × MutexState)
        ∈ execTrace (Call.body false Call.Wait) { owned := true, locked_ := true } := by
    simp [Call.body, CondVar.Wait, ifndef_NDEBUG, execTrace, Step.apply]
  ⟨hmem, ((locked_written_only_while_owned Call.Wait { owned := true, locked_ := true }
    rfl rfl).2 _ hmem).2.2.2⟩

/-! ## Thread-local storage shims -/

/-- C9, evaluated on the code: when the store fails (`TlsSetValue` returns
`FALSE`, last error `ERROR_INVALID_PARAMETER`) `pthread_setspecific` returns
`0`; when the store succeeds (`TlsSetValue` returns `TRUE`) with the last
error left at `5`, it returns `5`. -/
theorem pthread_setspecific_failure_returns_zero :
    pthread_setspecific FALSE ERROR_INVALID_PARAMETER = 0
      ∧ pthread_setspecific TRUE 5 = 5 := by
  simp [pthread_setspecific, FALSE, TRUE, toInt32]

/-- C10, evaluated on the code: when `TlsAlloc` hands out slot `3` and the
object `key` points to holds `7`, `pthread_key_create` returns `3` (not `0`)
and the object still holds `7` (not the slot index). -/
theorem pthread_key_create_does_not_store_key :
    pthread_key_create 7 none 3 = (3, 7)
      ∧ (pthread_key_create 7 none 3).1 ≠ 0
      ∧ (pthread_key_create 7 none 3).2 ≠ 3 := by
  simp [pthread_key_create, toInt32]

/-! ## Mutual exclusion: lemmas on lists -/

theorem getElem?_set_some {α : Type} (l : List α) (i j : Nat) (a b : α)
    (h : (l.set i b)[j]? = some a) : (j = i ∧ a = b) ∨ (j ≠ i ∧ l[j]? = some a) := by
  by_cases hji : j = i
  · subst hji
    left
    refine ⟨rfl, ?_⟩
    rw [List.getElem?_set_self'] at h
    cases hl : l[j]? with
    | none => simp [hl] at h
    | some c =>
      simp [hl] at h
      exact h.symm
  · right
    refine ⟨hji, ?_⟩
    rwa [List.getElem?_set_ne (fun hij => hji hij.symm)] at h

theorem sum_map_set {α : Type} (f : α → Nat) (l : List α) :
    ∀ (i : Nat) (a b : α), l[i]? = some a →
      ((l.set i b).map f).sum + f a = (l.map f).sum + f b := by
  induction l with
  | nil => intro i a b h; simp at h
  | cons c rest ih =>
    intro i a b h
    cases i with
    | zero =>
      simp only [List.getElem?_cons_zero, Option.some.injEq] at h
      subst h
      simp only [List.set_cons_zero, List.map_cons, List.sum_cons]
      omega
    | succ i =>
      simp only [List.getElem?_cons_succ] at h
      have := ih i a b h
      simp only [List.set_cons_succ, List.map_cons, List.sum_cons]
      omega

/-! ## Mutual exclusion: the invariant -/

theorem lockFree_owned (w : World) (h : w.lockFree = true) (j : Nat) (u : ThreadState)
    (hu : w.threads[j]? = some u) : u.owned = false := by
  have hall : ∀ t ∈ w.threads, t.owned = false := by
    simpa [World.lockFree] using h
  exact hall u (List.mem_iff_getElem?.mpr ⟨j, hu⟩)

theorem inv_update (total : Nat) (w : World) (i : Nat) (t t1 : ThreadState) (c1 : Nat)
    (l1 : Bool) (hinv : WorldInv total w) (ht : w.threads[i]? = some t)
    (hti : threadInv c1 t1)
    (hothers : ∀ (j : Nat) (u : ThreadState), j ≠ i → w.threads[j]? = some u → threadInv c1 u)
    (hown : t1.owned = true → t.owned = true ∨ w.lockFree = true)
    (hcount : c1 + pendingStores t1.pc = w.counter + pendingStores t.pc) :
    WorldInv total { threads := w.threads.set i t1, locked_ := l1, counter := c1 } := by
  obtain ⟨_, hex, hct⟩ := hinv
  have hclash : ∀ (j : Nat) (u : ThreadState), j ≠ i → w.threads[j]? = some u →
      u.owned = true → t1.owned = true → False := by
    intro j u hj hu ho ho1
    rcases hown ho1 with hto | hfree
    · exact hj (hex j i u t hu ht ho hto)
    · have := lockFree_owned w hfree j u hu
      rw [this] at ho
      exact Bool.noConfusion ho
  refine ⟨?_, ?_, ?_⟩
  · intro j u hu
    rcases getElem?_set_some _ _ _ _ _ hu with ⟨_, rfl⟩ | ⟨hne, hu1⟩
    · exact hti
    · exact hothers j u hne hu1
  · intro j1 j2 u1 u2 h1 h2 o1 o2
    rcases getElem?_set_some _ _ _ _ _ h1 with ⟨e1, rfl⟩ | ⟨n1, g1⟩
    · rcases getElem?_set_some _ _ _ _ _ h2 with ⟨e2, rfl⟩ | ⟨n2, g2⟩
      · rw [e1, e2]
      · exact (hclash j2 u2 n2 g2 o2 o1).elim
    · rcases getElem?_set_some _ _ _ _ _ h2 with ⟨e2, rfl⟩ | ⟨n2, g2⟩
      · exact (hclash j1 u1 n1 g1 o1 o2).elim
      · exact hex j1 j2 u1 u2 g1 g2 o1 o2
  · have hs := sum_map_set (fun t => pendingStores t.pc) w.threads i t t1 ht
    simp only at hs ⊢
    omega

theorem step_preserves_inv (total : Nat) (w w1 : World) (i : Nat) (hinv : WorldInv total w)
    (h : w.step i = some w1) : WorldInv total w1 := by
  have hth := hinv.threads
  have hex := hinv.excl
  unfold World.step at h
  cases ht : w.threads[i]? with
  | none => simp [ht] at h
  | some t =>
    rcases t with ⟨pc, reg, owned⟩
    have hti := hth i _ ht
    simp only [ht] at h
    cases pc with
    | nil => simp at h
    | cons ins rest =>
      cases ins with
      | mutex x =>
        cases x with
        | EnterCriticalSection =>
          by_cases hfree : w.lockFree = true
          · simp [Step.acquires, hfree, Step.apply] at h
            subst h
            simp [threadInv, bracketed] at hti
            cases owned <;> simp [bracketed] at hti
            refine inv_update total w i _ _ _ _ hinv ht (Or.inl hti)
              (fun j u _ hu => hth j u hu) (fun _ => Or.inr hfree) ?_
            simp [pendingStores]
          · simp [Step.acquires, hfree] at h
        | LeaveCriticalSection =>
          simp [Step.acquires, Step.apply] at h
          subst h
          simp [threadInv, bracketed] at hti
          cases owned <;> simp [bracketed] at hti
          refine inv_update total w i _ _ _ _ hinv ht (Or.inl hti)
            (fun j u _ hu => hth j u hu) (fun ho => by simp at ho) ?_
          simp [pendingStores]
        | setLocked b =>
          simp [Step.acquires, Step.apply] at h
          subst h
          simp [threadInv, bracketed] at hti
          refine inv_update total w i _ _ _ _ hinv ht (Or.inl ?_)
            (fun j u _ hu => hth j u hu) (fun ho => Or.inl ho) ?_
          · cases owned <;> simpa [bracketed] using hti
          · simp [pendingStores]
        | sleepSuspend d =>
          simp [threadInv, bracketed] at hti
        | sleepResume =>
          simp [threadInv, bracketed] at hti
      | load =>
        simp at h
        subst h
        simp [threadInv] at hti
        cases owned with
        | false => simp [bracketed] at hti
        | true =>
          cases rest with
          | nil => simp [bracketed] at hti
          | cons ins2 rest2 =>
            cases ins2 <;> simp [bracketed] at hti
            refine inv_update total w i _ _ _ _ hinv ht
              (Or.inr ⟨rfl, rest2, rfl, hti, rfl⟩)
              (fun j u _ hu => hth j u hu) (fun ho => Or.inl ho) ?_
            simp [pendingStores]
      | store =>
        simp at h
        subst h
        simp [threadInv] at hti
        rcases hti with hb | ⟨ho, hb, hreg⟩
        · cases owned <;> simp [bracketed] at hb
        · subst ho
          subst hreg
          refine inv_update total w i _ _ _ _ hinv ht (Or.inl hb) ?_ (fun ho => Or.inl ho) ?_
          · intro j u hj hu
            rcases hth j u hu with hl | ⟨huo, _⟩
            · exact Or.inl hl
            · exact (hj (hex j i u _ hu ht huo rfl)).elim
          · simp [pendingStores]
            omega

theorem step_remaining (w w1 : World) (i : Nat) (h : w.step i = some w1) :
    w1.remaining + 1 = w.remaining := by
  unfold World.step at h
  cases ht : w.threads[i]? with
  | none => simp [ht] at h
  | some t =>
    rcases t with ⟨pc, reg, owned⟩
    simp only [ht] at h
    cases pc with
    | nil => simp at h
    | cons ins rest =>
      cases ins with
      | mutex x =>
        by_cases hg : (x.acquires && !w.lockFree) = true
        · simp [hg] at h
        · simp only [hg, if_false, Option.some.injEq, Bool.false_eq_true] at h
          subst h
          have hs := sum_map_set (fun t => t.pc.length) w.threads i _
            { pc := rest, reg := reg,
              owned := (x.apply { owned := owned, locked_ := w.locked_ }).owned } ht
          simp only [List.length_cons] at hs
          simp only [World.remaining]
          omega
      | load =>
        simp only [Option.some.injEq] at h
        subst h
        have hs := sum_map_set (fun t => t.pc.length) w.threads i _
          { pc := rest, reg := w.counter, owned := owned } ht
        simp only [List.length_cons] at hs
        simp only [World.remaining]
        omega
      | store =>
        simp only [Option.some.injEq] at h
        subst h
        have hs := sum_map_set (fun t => t.pc.length) w.threads i _
          { pc := rest, reg := reg, owned := owned } ht
        simp only [List.length_cons] at hs
        simp only [World.remaining]
        omega

theorem step_enabled (total : Nat) (w : World) (hinv : WorldInv total w)
    (hfin : w.finished = false) : ∃ (i : Nat) (w1 : World), w.step i = some w1 := by
  by_cases hfree : w.lockFree = true
  · have hex : ∃ t ∈ w.threads, t.pc ≠ [] := by
      by_contra hno
      have hall : w.finished = true := by
        simp only [World.finished, List.all_eq_true, List.isEmpty_iff]
        intro t ht
        by_contra hne
        exact hno ⟨t, ht, hne⟩
      rw [hall] at hfin
      exact Bool.noConfusion hfin
    obtain ⟨t, htm, hpc⟩ := hex
    obtain ⟨i, ht⟩ := List.mem_iff_getElem?.mp htm
    rcases t with ⟨pc, reg, owned⟩
    refine ⟨i, ?_⟩
    unfold World.step
    simp only [ht]
    cases pc with
    | nil => exact (hpc rfl).elim
    | cons ins rest =>
      cases ins with
      | mutex x => simp [hfree]
      | load => simp
      | store => simp
  · have hex : ∃ t ∈ w.threads, t.owned = true := by
      by_contra hno
      apply hfree
      simp only [World.lockFree, List.all_eq_true, Bool.not_eq_true']
      intro t ht
      cases ho : t.owned with
      | false => rfl
      | true => exact (hno ⟨t, ht, ho⟩).elim
    obtain ⟨t, htm, ho⟩ := hex
    obtain ⟨i, ht⟩ := List.mem_iff_getElem?.mp htm
    have hti := hinv.threads i t ht
    rcases t with ⟨pc, reg, owned⟩
    simp only at ho
    subst ho
    refine ⟨i, ?_⟩
    unfold World.step
    simp only [ht]
    rcases hti with hb | ⟨_, rest, hpc, _, _⟩
    · simp only at hb
      cases pc with
      | nil => simp [bracketed] at hb
      | cons ins rest =>
        cases ins with
        | mutex x => cases x <;> simp [bracketed] at hb <;> simp [Step.acquires]
        | load => simp
        | store => simp
    · simp only at hpc
      subst hpc
      simp

theorem runSchedule_inv (total : Nat) (sched : List Nat) :
    ∀ (w w1 : World), WorldInv total w → runSchedule sched w = some w1 → WorldInv total w1 := by
  induction sched with
  | nil =>
    intro w w1 hinv h
    simp only [runSchedule, Option.some.injEq] at h
    exact h ▸ hinv
  | cons i rest ih =>
    intro w w1 hinv h
    simp only [runSchedule] at h
    cases hs : w.step i with
    | none => simp [hs] at h
    | some w2 =>
      simp only [hs] at h
      exact ih w2 w1 (step_preserves_inv total w w2 i hinv hs) h

theorem runSchedule_remaining (sched : List Nat) :
    ∀ (w w1 : World), runSchedule sched w = some w1 →
      sched.length + w1.remaining = w.remaining := by
  induction sched with
  | nil =>
    intro w w1 h
    simp only [runSchedule, Option.some.injEq] at h
    simp [h]
  | cons i rest ih =>
    intro w w1 h
    simp only [runSchedule] at h
    cases hs : w.step i with
    | none => simp [hs] at h
    | some w2 =>
      simp only [hs] at h
      have h1 := ih w2 w1 h
      have h2 := step_remaining w w2 i hs
      simp only [List.length_cons]
      omega

theorem runSchedule_append (a b : List Nat) :
    ∀ (w w1 : World), runSchedule a w = some w1 →
      runSchedule (a ++ b) w = runSchedule b w1 := by
  induction a with
  | nil =>
    intro w w1 h
    simp only [runSchedule, Option.some.injEq] at h
    simp [h]
  | cons i rest ih =>
    intro w w1 h
    simp only [runSchedule] at h
    cases hs : w.step i with
    | none => simp [hs] at h
    | some w2 =>
      simp only [hs] at h
      simp only [List.cons_append, runSchedule, hs]
      exact ih w2 w1 h

theorem finished_counter (total : Nat) (w : World) (hinv : WorldInv total w)
    (hfin : w.finished = true) : w.counter = total := by
  have hall : ∀ t ∈ w.threads, t.pc = [] := by
    simpa [World.finished] using hfin
  have hzero : (w.threads.map (fun t => pendingStores t.pc)).sum = 0 := by
    apply List.sum_eq_zero
    intro x hx
    obtain ⟨t, ht, rfl⟩ := List.mem_map.mp hx
    simp [hall t ht, pendingStores]
  have := hinv.count
  omega

theorem runs_to_completion (total : Nat) :
    ∀ (m : Nat) (w : World), w.remaining = m → WorldInv total w →
      ∃ (rest : List Nat) (w2 : World), runSchedule rest w = some w2 ∧ w2.finished = true := by
  intro m
  induction m with
  | zero =>
    intro w hm hinv
    cases hfin : w.finished with
    | true => exact ⟨[], w, rfl, hfin⟩
    | false =>
      obtain ⟨i, w1, hs⟩ := step_enabled total w hinv hfin
      have := step_remaining w w1 i hs
      omega
  | succ m ih =>
    intro w hm hinv
    cases hfin : w.finished with
    | true => exact ⟨[], w, rfl, hfin⟩
    | false =>
      obtain ⟨i, w1, hs⟩ := step_enabled total w hinv hfin
      have hr := step_remaining w w1 i hs
      obtain ⟨rest, w2, hrun, hdone⟩ :=
        ih w1 (by omega) (step_preserves_inv total w w1 i hinv hs)
      refine ⟨i :: rest, w2, ?_, hdone⟩
      simp only [runSchedule, hs]
      exact hrun

theorem bracketed_lockedIncrement (ndebug : Bool) (rest : List Instr) :
    bracketed false (lockedIncrement ndebug ++ rest) = bracketed false rest := by
  cases ndebug <;>
    simp [lockedIncrement, Mutex.Lock, Mutex.Unlock, ifndef_NDEBUG, bracketed]

theorem bracketed_threadProgram (ndebug : Bool) (n : Nat) :
    bracketed false (threadProgram ndebug n) = true := by
  induction n with
  | zero => simp [threadProgram, bracketed]
  | succ n ih => rw [threadProgram, bracketed_lockedIncrement, ih]

theorem pendingStores_lockedIncrement (ndebug : Bool) (rest : List Instr) :
    pendingStores (lockedIncrement ndebug ++ rest) = pendingStores rest + 1 := by
  cases ndebug <;>
    simp [lockedIncrement, Mutex.Lock, Mutex.Unlock, ifndef_NDEBUG, pendingStores]

theorem pendingStores_threadProgram (ndebug : Bool) (n : Nat) :
    pendingStores (threadProgram ndebug n) = n := by
  induction n with
  | zero => simp [threadProgram, pendingStores]
  | succ n ih => rw [threadProgram, pendingStores_lockedIncrement, ih]

theorem start_inv (ndebug : Bool) (k n : Nat) :
    WorldInv (k * n) (World.start ndebug k n) := by
  refine ⟨?_, ?_, ?_⟩
  · intro i t ht
    simp only [World.start, List.getElem?_replicate] at ht
    split at ht
    · simp only [Option.some.injEq] at ht
      subst ht
      exact Or.inl (bracketed_threadProgram ndebug n)
    · exact Option.noConfusion ht
  · intro i j ti tj hi _ hoi _
    simp only [World.start, List.getElem?_replicate] at hi
    split at hi
    · simp only [Option.some.injEq] at hi
      subst hi
      exact Bool.noConfusion hoi
    · exact Option.noConfusion hi
  · simp [World.start, pendingStores_threadProgram]

theorem start_remaining (ndebug : Bool) (k n : Nat) :
    (World.start ndebug k n).remaining = k * (threadProgram ndebug n).length := by
  simp [World.start, World.remaining]

/-- Without the lock the increment loses updates: two threads that read and
write the counter with no `Lock()`/`Unlock()` around, interleaved as read,
read, write, write, leave the counter at `1`, not `2`. -/
theorem unlocked_increment_loses_update :
    runSchedule [0, 1, 0, 1]
        { threads := List.replicate 2
            { pc := [Instr.load, Instr.store], reg := 0, owned := false },
          locked_ := false, counter := 0 }
      = some { threads := [{ pc := [], reg := 0, owned := false },
                           { pc := [], reg := 0, owned := false }],
               locked_ := false, counter := 1 } := by
  rfl

/-! ## Mutual exclusion -/

/-- C7: `k` threads each perform `n` increments of a shared counter, each
increment (a read followed by a write) bracketed by `Lock()` and `Unlock()` on
the same `Mutex`, in a debug or a release build.  For every interleaving of
their atomic steps from the initial world, in the world `w` it reaches: if
every thread has finished, the counter is exactly `k * n`; no two distinct
threads own the lock; if some thread has not finished, some thread can take a
step (no deadlock); the steps taken plus the instructions left make up the
`k` programs, so no interleaving goes on forever; and the interleaving extends
to one in which every thread finishes, with the counter at `k * n`. -/
theorem counter_exact_under_every_interleaving (ndebug : Bool) (k n : Nat) (sched : List Nat)
    (w : World) (h : runSchedule sched (World.start ndebug k n) = some w) :
    (w.finished = true → w.counter = k * n)
      ∧ (∀ (i j : Nat) (ti tj : ThreadState), w.threads[i]? = some ti →
          w.threads[j]? = some tj → ti.owned = true → tj.owned = true → i = j)
      ∧ (w.finished = false → ∃ (i : Nat) (w1 : World), w.step i = some w1)
      ∧ sched.length + w.remaining = k * (threadProgram ndebug n).length
      ∧ (∃ (rest : List Nat) (w2 : World),
          runSchedule (sched ++ rest) (World.start ndebug k n) = some w2
            ∧ w2.finished = true ∧ w2.counter = k * n) := by
  have hinv : WorldInv (k * n) w :=
    runSchedule_inv (k * n) sched _ w (start_inv ndebug k n) h
  refine ⟨finished_counter (k * n) w hinv, hinv.excl, step_enabled (k * n) w hinv, ?_, ?_⟩
  · rw [runSchedule_remaining sched _ w h, start_remaining]
  · obtain ⟨rest, w2, hrun, hdone⟩ := runs_to_completion (k * n) w.remaining w rfl hinv
    refine ⟨rest, w2, ?_, hdone, ?_⟩
    · rw [runSchedule_append sched rest _ w h]
      exact hrun
    · exact finished_counter (k * n) w2 (runSchedule_inv (k * n) rest w w2 hinv hrun) hdone

/-- Witness of C7: two threads with two increments each in a debug build,
scheduled as thread 0, thread 1, thread 1, thread 0 (one bracketed increment
at a time), finish with the counter at `4`. -/
theorem counter_exact_under_every_interleaving_witness :
    runSchedule [0, 0, 0, 0, 0, 0, 1, 1, 1, 1, 1, 1, 1, 1, 1, 1, 1, 1, 0, 0, 0, 0, 0, 0]
        (World.start false 2 2)
      = some { threads := [{ pc := [], reg := 3, owned := false },
                           { pc := [], reg := 2, owned := false }],
               locked_ := false, counter := 4 }
      ∧ ({ threads := [{ pc := [], reg := 3, owned := false },
                       { pc := [], reg := 2, owned := false }],
           locked_ := false, counter := 4 } : World).counter = 2 * 2 :=
  have hrun : runSchedule
      [0, 0, 0, 0, 0, 0, 1, 1, 1, 1, 1, 1, 1, 1, 1, 1, 1, 1, 0, 0, 0, 0, 0, 0]
        (World.start false 2 2)
      = some { threads := [{ pc := [], reg := 3, owned := false },
                           { pc := [], reg := 2, owned := false }],
               locked_ := false, counter := 4 } := rfl
  ⟨hrun, (counter_exact_under_every_interleaving false 2 2 _ _ hrun).1 rfl⟩

end PortWin
